import Mathlib

/-!
# BOQ widgets (`static/src/js/boq_widgets.js`)

A shallow embedding of the progress-bar and status-badge getters and of the
`BoqUtils` helpers, over a model of the ECMAScript primitives they use.

Numbers are IEEE-754 binary64 values.  Every finite double is an integer
multiple of `2^-1074`, so a finite Number is stored as a sign and a magnitude
counted in that unit; arithmetic computes the exact result over the integers
and rounds it once, to nearest with ties to even.
-/

namespace BoqWidgets

/-! ## Numbers -/

/-- An ECMAScript Number.  `fin neg mag` is the finite value
`(-1)^neg * mag * 2^-1074`; the two zeros are `fin false 0` and `fin true 0`. -/
inductive JSNum
  | nan
  | inf (neg : Bool)
  | fin (neg : Bool) (mag : Nat)
  deriving DecidableEq, Repr

/-- The magnitude of `1.0`, in units of `2^-1074`. -/
def quantum : Nat := 2 ^ 1074

/-- The magnitude of `2^1024`, the first value too large for a finite double. -/
def overflowMag : Nat := 2 ^ 2098

/-- The integer nearest to `a / b`, a tie going to the even neighbour. -/
def roundHalfEven (a b : Nat) : Nat :=
  if 2 * (a % b) < b then a / b
  else if b < 2 * (a % b) then a / b + 1
  else if (a / b) % 2 = 0 then a / b
  else a / b + 1

/-- The number of binary digits of `n`, counted within `fuel` halvings. -/
def bitLengthAux : Nat → Nat → Nat
  | 0, _ => 0
  | fuel + 1, n => if n = 0 then 0 else bitLengthAux fuel (n / 2) + 1

/-- The number of binary digits of `n`: `2^(bitLength n - 1) ≤ n < 2^(bitLength n)`
for a positive `n`. -/
def bitLength (n : Nat) : Nat := bitLengthAux n n

/-- The number of low bits that a magnitude near `n / d` has to drop to fit
53 significant bits (none below `2^53` units: subnormals and the first normal
binade are spaced one unit apart). -/
def dropBits (n d : Nat) : Nat := bitLength (n / d) - 53

/-- The representable magnitude nearest to `n / d` units, ties to even. -/
def roundMag (n d : Nat) : Nat :=
  roundHalfEven n (d * 2 ^ dropBits n d) * 2 ^ dropBits n d

/-- The Number for the exact value `(-1)^neg * n / d` units: rounded to
nearest, and infinite once the rounded magnitude reaches `2^1024`. -/
def ofRatio (neg : Bool) (n d : Nat) : JSNum :=
  if overflowMag ≤ roundMag n d then .inf neg else .fin neg (roundMag n d)

/-- A magnitude is that of a double: below `2^1024`, with at most 53
significant bits. -/
def IsDoubleMag (m : Nat) : Prop :=
  m < overflowMag ∧ m % 2 ^ (bitLength m - 53) = 0

instance (m : Nat) : Decidable (IsDoubleMag m) := by
  unfold IsDoubleMag; infer_instance

/-- The values of `JSNum` that are doubles. -/
def JSNum.IsDouble : JSNum → Prop
  | .fin _ m => IsDoubleMag m
  | _ => True

instance (x : JSNum) : Decidable x.IsDouble := by
  cases x <;> unfold JSNum.IsDouble <;> infer_instance

/-- The Number written as the non-negative integer literal `n`. -/
def ofNat (n : Nat) : JSNum := ofRatio false (n * quantum) 1

/-- The Number written as the decimal literal `n / 10^k` (`24.999` is
`ofDecimal 24999 3`). -/
def ofDecimal (n k : Nat) : JSNum := ofRatio false (n * quantum) (10 ^ k)

/-- Unary minus. -/
def JSNum.neg : JSNum → JSNum
  | .nan => .nan
  | .inf s => .inf (!s)
  | .fin s m => .fin (!s) m

/-- The signed count of units of a finite value. -/
def signedMag (neg : Bool) (m : Nat) : Int := if neg then -(m : Int) else (m : Int)

/-- The signed count of units of a Number; `none` for `NaN` and the
infinities.  The value of the Number is this count times `2^-1074`. -/
def JSNum.units? : JSNum → Option Int
  | .fin s m => some (signedMag s m)
  | _ => none

/-- The comparison `x < y` on Numbers: false when either is `NaN`. -/
def JSNum.lt : JSNum → JSNum → Bool
  | .nan, _ => false
  | _, .nan => false
  | .inf a, .inf b => a && !b
  | .inf a, .fin _ _ => a
  | .fin _ _, .inf b => !b
  | .fin a m, .fin b n => decide (signedMag a m < signedMag b n)

/-- The comparison `x <= y` on Numbers: false when either is `NaN`. -/
def JSNum.le : JSNum → JSNum → Bool
  | .nan, _ => false
  | _, .nan => false
  | .inf a, .inf b => a || !b
  | .inf a, .fin _ _ => a
  | .fin _ _, .inf b => !b
  | .fin a m, .fin b n => decide (signedMag a m ≤ signedMag b n)

/-- Number addition `x + y`. -/
def JSNum.add : JSNum → JSNum → JSNum
  | .nan, _ => .nan
  | _, .nan => .nan
  | .inf a, .inf b => if a = b then .inf a else .nan
  | .inf a, .fin _ _ => .inf a
  | .fin _ _, .inf b => .inf b
  | .fin a m, .fin b n =>
    if signedMag a m + signedMag b n = 0 then .fin (a && b) 0
    else ofRatio (decide (signedMag a m + signedMag b n < 0))
      (signedMag a m + signedMag b n).natAbs 1

/-- Number multiplication `x * y`. -/
def JSNum.mul : JSNum → JSNum → JSNum
  | .nan, _ => .nan
  | _, .nan => .nan
  | .inf a, .inf b => .inf (a != b)
  | .inf a, .fin b n => if n = 0 then .nan else .inf (a != b)
  | .fin a m, .inf b => if m = 0 then .nan else .inf (a != b)
  | .fin a m, .fin b n => ofRatio (a != b) (m * n) quantum

/-- Number division `x / y`. -/
def JSNum.div : JSNum → JSNum → JSNum
  | .nan, _ => .nan
  | _, .nan => .nan
  | .inf _, .inf _ => .nan
  | .inf a, .fin b _ => .inf (a != b)
  | .fin a _, .inf b => .fin (a != b) 0
  | .fin a m, .fin b n =>
    if n = 0 then (if m = 0 then .nan else .inf (a != b))
    else ofRatio (a != b) (m * quantum) n

/-- The function `Math.round`: the integer nearest to `x`, a tie going toward
`+∞`; a result of zero keeps the sign of `x`. -/
def mathRound : JSNum → JSNum
  | .nan => .nan
  | .inf s => .inf s
  | .fin s m =>
    if (2 * signedMag s m + quantum) / (2 * (quantum : Int)) = 0 then .fin s 0
    else .fin (decide ((2 * signedMag s m + quantum) / (2 * (quantum : Int)) < 0))
      (((2 * signedMag s m + quantum) / (2 * (quantum : Int))).natAbs * quantum)

/-! ## Number to string -/

/-- The units of `s * 10^e`, as a numerator and a denominator. -/
def scaledUnits (s : Nat) (e : Int) : Nat × Nat :=
  if 0 ≤ e then (s * 10 ^ e.toNat * quantum, 1) else (s * quantum, 10 ^ (-e).toNat)

/-- The decimal `s * 10^e` reads back as the double of magnitude `m`. -/
def readsBack (m s : Nat) (e : Int) : Bool :=
  decide (ofRatio false (scaledUnits s e).1 (scaledUnits s e).2 = .fin false m)

/-- The integer part of `m units / 10^e`. -/
def floorScaled (m : Nat) (e : Int) : Nat :=
  if 0 ≤ e then m / (quantum * 10 ^ e.toNat) else (m * 10 ^ (-e).toNat) / quantum

/-- The position `n` of the decimal point of a positive magnitude:
`10^(n-1) ≤ m units < 10^n`. -/
def decimalPoint (m : Nat) : Int :=
  ((Nat.toDigits 10 (m * 10 ^ 400 / quantum)).length : Int) - 400

/-- The pairs `(n, s)` with `s` of exactly `k` digits for which `s * 10^(n-k)`
reads back as `m`; only the two decimals on either side of the value can. -/
def digitCandidates (m k : Nat) : List (Int × Nat) :=
  ([decimalPoint m, decimalPoint m + 1].flatMap fun n =>
    [(n, floorScaled m (n - k)), (n, floorScaled m (n - k) + 1)]).filter fun c =>
      decide (10 ^ (k - 1) ≤ c.2) && decide (c.2 < 10 ^ k) && readsBack m c.2 (c.1 - k)

/-- The distance from `s * 10^e` to `m` units, as a numerator over the
denominator of `scaledUnits s e`. -/
def decimalError (m s : Nat) (e : Int) : Nat :=
  ((scaledUnits s e).1 : Int) - (m : Int) * (scaledUnits s e).2 |>.natAbs

/-- Candidate `c` is a better choice than `b` with the same digit count `k`:
nearer to the value, or as near and even. -/
def betterDigits (m k : Nat) (c b : Int × Nat) : Bool :=
  let ec := decimalError m c.2 (c.1 - k) * (scaledUnits b.2 (b.1 - k)).2
  let eb := decimalError m b.2 (b.1 - k) * (scaledUnits c.2 (c.1 - k)).2
  decide (ec < eb) || (decide (ec = eb) && decide (c.2 % 2 = 0) && decide (b.2 % 2 ≠ 0))

/-- The best of a list of candidates. -/
def bestDigits (m k : Nat) : List (Int × Nat) → Option (Int × Nat)
  | [] => none
  | c :: cs =>
    match bestDigits m k cs with
    | none => some c
    | some b => if betterDigits m k b c then some b else some c

/-- The shortest digits: the least `k` from `k` on, within `fuel` tries, that
has a candidate, with `n` and `s`. -/
def shortestDigits (m : Nat) : Nat → Nat → Option (Nat × Int × Nat)
  | 0, _ => none
  | fuel + 1, k =>
    match bestDigits m k (digitCandidates m k) with
    | some c => some (k, c.1, c.2)
    | none => shortestDigits m fuel (k + 1)

/-- Lay out the `k` digits of `s` with the decimal point at `n`, as
`Number::toString` does: plain digits between `1e-6` and `1e21`, exponent form
outside. -/
def layoutDigits (k : Nat) (n : Int) (s : Nat) : String :=
  let ds := Nat.repr s
  if (k : Int) ≤ n ∧ n ≤ 21 then ds ++ String.mk (List.replicate (n - k).toNat '0')
  else if 0 < n ∧ n ≤ 21 then
    String.mk (ds.data.take n.toNat) ++ "." ++ String.mk (ds.data.drop n.toNat)
  else if -6 < n ∧ n ≤ 0 then "0." ++ String.mk (List.replicate (-n).toNat '0') ++ ds
  else
    let ex := (if 0 ≤ n - 1 then "e+" else "e-") ++ Nat.repr (n - 1).natAbs
    if k = 1 then ds ++ ex
    else String.mk (ds.data.take 1) ++ "." ++ String.mk (ds.data.drop 1) ++ ex

/-- The operation `Number::toString` in radix 10: the shortest decimal that
reads back as the same double, the nearest one when several do. -/
def numberToString : JSNum → String
  | .nan => "NaN"
  | .inf s => if s then "-Infinity" else "Infinity"
  | .fin s m =>
    if m = 0 then "0"
    else
      match shortestDigits m 17 1 with
      | some (k, n, d) => (if s then "-" else "") ++ layoutDigits k n d
      | none => (if s then "-" else "") ++ layoutDigits 17 (decimalPoint m)
          (floorScaled m (decimalPoint m - 17))

/-! ## Values -/

/-- What a numeric argument or a numeric field can hold: a Number, or one of
the primitives that stand for no value.  Strings and objects are outside this
input type. -/
inductive JSVal
  | undefined
  | null
  | bool (b : Bool)
  | num (x : JSNum)
  deriving DecidableEq, Repr

/-- The conversion `ToBoolean`: `undefined`, `null`, `false`, `NaN` and the two
zeros are falsy. -/
def JSVal.truthy : JSVal → Bool
  | .undefined => false
  | .null => false
  | .bool b => b
  | .num .nan => false
  | .num (.inf _) => true
  | .num (.fin _ m) => decide (m ≠ 0)

/-- The conversion `ToNumber`. -/
def JSVal.toNumber : JSVal → JSNum
  | .undefined => .nan
  | .null => .fin false 0
  | .bool b => if b then .fin false quantum else .fin false 0
  | .num x => x

/-- The conversion `ToString`, as a template literal applies it. -/
def JSVal.toStr : JSVal → String
  | .undefined => "undefined"
  | .null => "null"
  | .bool b => if b then "true" else "false"
  | .num x => numberToString x

/-- The expression `a || b`. -/
def JSVal.or (a b : JSVal) : JSVal := if a.truthy then a else b

/-- The expression `a < b`. -/
def JSVal.lt (a b : JSVal) : Bool := a.toNumber.lt b.toNumber

/-- The expression `a <= b`. -/
def JSVal.le (a b : JSVal) : Bool := a.toNumber.le b.toNumber

/-- The expression `a + b` (no operand is a string). -/
def JSVal.add (a b : JSVal) : JSVal := .num (a.toNumber.add b.toNumber)

/-- The expression `a * b`. -/
def JSVal.mul (a b : JSVal) : JSVal := .num (a.toNumber.mul b.toNumber)

/-- The expression `a / b`. -/
def JSVal.div (a b : JSVal) : JSVal := .num (a.toNumber.div b.toNumber)

/-- What a status field or a currency argument can hold: a string, or one of
the primitives that stand for no value. -/
inductive JSText
  | undefined
  | null
  | bool (b : Bool)
  | str (s : String)
  deriving DecidableEq, Repr

/-- The conversion `ToBoolean`: the empty string is falsy. -/
def JSText.truthy : JSText → Bool
  | .undefined => false
  | .null => false
  | .bool b => b
  | .str s => decide (s ≠ "")

/-- The conversion `ToPropertyKey`. -/
def JSText.toPropertyKey : JSText → String
  | .undefined => "undefined"
  | .null => "null"
  | .bool b => if b then "true" else "false"
  | .str s => s

/-- What reading a property of an object literal of strings gives: `undefined`,
one of its strings, or the member of `Object.prototype` of that name (a
function, or for `__proto__` the prototype object). -/
inductive PropVal
  | undefined
  | str (s : String)
  | inherited (key : String)
  deriving DecidableEq, Repr

/-- The conversion `ToBoolean`: every object is truthy. -/
def PropVal.truthy : PropVal → Bool
  | .undefined => false
  | .str s => decide (s ≠ "")
  | .inherited _ => true

/-- The names of the members of `Object.prototype`, which every object literal
inherits. -/
def objectPrototypeKeys : List String :=
  ["constructor", "hasOwnProperty", "isPrototypeOf", "propertyIsEnumerable",
   "toLocaleString", "toString", "valueOf", "__proto__", "__defineGetter__",
   "__defineSetter__", "__lookupGetter__", "__lookupSetter__"]

/-- The expression `obj[key]` on an object literal with the own properties
`own`: the own property when there is one, else the inherited one. -/
def getProperty (own : List (String × String)) (key : String) : PropVal :=
  match own.lookup key with
  | some v => .str v
  | none => if key ∈ objectPrototypeKeys then .inherited key else .undefined

/-! ## The widgets

A getter reads `this.props.record.data[this.props.name]`, the value of the
field the widget is bound to; the getters below take that value. -/

/-- The getter `BoqProgressBar.progressStyle`. -/
def progressStyle (field : JSVal) : String :=
  "width: " ++ (field.or (.num (ofNat 0))).toStr ++ "%"

/-- The getter `BoqProgressBar.progressClass`. -/
def progressClass (field : JSVal) : String :=
  let value := field.or (.num (ofNat 0))
  if value.lt (.num (ofNat 25)) then "bg-danger"
  else if value.lt (.num (ofNat 50)) then "bg-warning"
  else if value.lt (.num (ofNat 75)) then "bg-info"
  else "bg-success"

/-- The table `statusMap` of `BoqStatusBadge.statusClass`. -/
def statusMap : List (String × String) :=
  [("draft", "badge-secondary"),
   ("submitted", "badge-warning"),
   ("approved", "badge-success"),
   ("in_progress", "badge-primary"),
   ("done", "badge-info"),
   ("cancelled", "badge-dark")]

/-- The getter `BoqStatusBadge.statusClass`. -/
def statusClass (status : JSText) : PropVal :=
  if (getProperty statusMap status.toPropertyKey).truthy
  then getProperty statusMap status.toPropertyKey
  else .str "badge-light"

/-! ## `window.BoqUtils` -/

/-- The options object handed to `Intl.NumberFormat`. -/
structure NumberFormatOptions where
  style : String
  currency : JSText
  deriving DecidableEq, Repr

/-- The function `BoqUtils.formatCurrency`.  The host's
`new Intl.NumberFormat(locales, options).format(amount)` is the parameter
`intlFormat`; its result (a string, or the error it throws) is `α`. -/
def formatCurrency {α : Type} (intlFormat : String → NumberFormatOptions → JSVal → α)
    (amount : JSVal) (currency : JSText) : α :=
  intlFormat "en-US"
    { style := "currency", currency := if currency.truthy then currency else .str "USD" }
    amount

/-- The function `BoqUtils.calculateProgress`. -/
def calculateProgress (current total : JSVal) : JSVal :=
  if total.truthy then
    .num (mathRound ((current.div total).mul (.num (ofNat 100))).toNumber)
  else .num (ofNat 0)

/-- The function `BoqUtils.validateQuantity`. -/
def validateQuantity (current previous master : JSVal) : Bool :=
  (current.add previous).le master

/-! ## The severity order and the host formatter -/

/-- The rank of a class of `progressClass` in the severity order
danger < warning < info < success. -/
def severityRank (cls : String) : Nat :=
  if cls = "bg-danger" then 0
  else if cls = "bg-warning" then 1
  else if cls = "bg-info" then 2
  else 3

/-- The six status codes of `statusMap`. -/
def statusCodes : List String :=
  ["draft", "submitted", "approved", "in_progress", "done", "cancelled"]

/-- Digits with a comma before every group of three counted from the right. -/
def groupThousands : List Char → List Char
  | [] => []
  | c :: cs =>
    if cs.length % 3 = 0 ∧ cs ≠ [] then c :: ',' :: groupThousands cs
    else c :: groupThousands cs

/-- A number below 100 as two decimal digits. -/
def twoDigits (n : Nat) : String := (if n < 10 then "0" else "") ++ Nat.repr n

/-- The count of hundredths nearest to a magnitude, a tie going away from
zero. -/
def roundToCents (m : Nat) : Nat := (2 * 100 * m + quantum) / (2 * quantum)

/-- Modelled from the spec: the string that the host's `Intl.NumberFormat` gives
for the locale `en-US`, the style `currency` and the currency `USD`; the
formatter and its locale data are not part of the repository.  Following the
specification's rules (symbol placement, grouping, decimal precision): the
sign, the symbol `$`, the integer part in groups of three separated by commas,
a point and two decimals. -/
def formatUsd : JSNum → String
  | .nan => "$NaN"
  | .inf s => (if s then "-" else "") ++ "$∞"
  | .fin s m =>
    (if s then "-" else "") ++ "$" ++
      String.mk (groupThousands (Nat.repr (roundToCents m / 100)).data) ++ "." ++
      twoDigits (roundToCents m % 100)

/-- Modelled from the spec: `new Intl.NumberFormat(locales, options).format(amount)`
of the host, which is not part of the repository; `none` for the locales and
options that the model does not cover. -/
def intlNumberFormat (locales : String) (options : NumberFormatOptions) (amount : JSVal) :
    Option String :=
  if locales = "en-US" ∧ options.style = "currency" ∧ options.currency = .str "USD" then
    some (formatUsd amount.toNumber)
  else none

/-! ## Facts about the model -/

section Literals

set_option exponentiation.threshold 4096
set_option maxRecDepth 100000

theorem quantum_pos : 0 < quantum := by decide

theorem ofNat_zero : ofNat 0 = .fin false 0 := by decide

theorem ofNat_25 : ofNat 25 = .fin false (25 * quantum) := by decide

theorem ofNat_50 : ofNat 50 = .fin false (50 * quantum) := by decide

theorem ofNat_75 : ofNat 75 = .fin false (75 * quantum) := by decide

theorem ofNat_100 : ofNat 100 = .fin false (100 * quantum) := by decide

end Literals

theorem JSNum.lt_nan_right (x : JSNum) : x.lt .nan = false := by
  cases x <;> rfl

theorem JSNum.le_nan_right (x : JSNum) : x.le .nan = false := by
  cases x <;> rfl

theorem JSNum.lt_fin_fin (a : Bool) (m : Nat) (b : Bool) (n : Nat) :
    (JSNum.fin a m).lt (.fin b n) = decide (signedMag a m < signedMag b n) := rfl

theorem JSNum.le_fin_fin (a : Bool) (m : Nat) (b : Bool) (n : Nat) :
    (JSNum.fin a m).le (.fin b n) = decide (signedMag a m ≤ signedMag b n) := rfl

theorem JSNum.lt_inf_fin (a b : Bool) (n : Nat) : (JSNum.inf a).lt (.fin b n) = a := rfl

theorem JSNum.le_inf_fin (a b : Bool) (n : Nat) : (JSNum.inf a).le (.fin b n) = a := rfl

theorem JSNum.lt_fin_inf (a : Bool) (m : Nat) (b : Bool) : (JSNum.fin a m).lt (.inf b) = !b := rfl

theorem JSNum.le_fin_inf (a : Bool) (m : Nat) (b : Bool) : (JSNum.fin a m).le (.inf b) = !b := rfl

/-- Away from `NaN`, `x <= y` is the negation of `y < x`. -/
theorem JSNum.le_eq_not_lt (x y : JSNum) (hx : x ≠ .nan) (hy : y ≠ .nan) :
    x.le y = !y.lt x := by
  cases x with
  | nan => exact absurd rfl hx
  | inf a =>
    cases y with
    | nan => exact absurd rfl hy
    | inf b => cases a <;> cases b <;> rfl
    | fin b n => cases a <;> rfl
  | fin a m =>
    cases y with
    | nan => exact absurd rfl hy
    | inf b => cases b <;> rfl
    | fin b n =>
      rw [JSNum.le_fin_fin, JSNum.lt_fin_fin]
      by_cases h : signedMag a m ≤ signedMag b n
      · have h2 : ¬ signedMag b n < signedMag a m := by omega
        simp [h, h2]
      · have h2 : signedMag b n < signedMag a m := by omega
        simp [h, h2]

/-- A falsy field is read as the Number `0`. -/
theorem or_zero_of_falsy (field : JSVal) (h : field.truthy = false) :
    field.or (.num (ofNat 0)) = .num (.fin false 0) := by
  simp [JSVal.or, h, ofNat_zero]

/-- A truthy field is read as itself. -/
theorem or_zero_of_truthy (field : JSVal) (h : field.truthy = true) :
    field.or (.num (ofNat 0)) = field := by
  simp [JSVal.or, h]

/-- The class of a Number field, by comparisons of the Number itself: a falsy
Number (`NaN` or a zero) is read as `0`, which is below every threshold. -/
theorem progressClass_num (v : JSNum) :
    progressClass (.num v) =
      if v = .nan ∨ v.lt (ofNat 25) = true then "bg-danger"
      else if v.lt (ofNat 50) = true then "bg-warning"
      else if v.lt (ofNat 75) = true then "bg-info"
      else "bg-success" := by
  have hq := quantum_pos
  cases v with
  | nan =>
    have h : (0 : Int) < 25 * (quantum : Int) := by omega
    simp [progressClass, JSVal.or, JSVal.truthy, JSVal.lt, JSVal.toNumber, ofNat_zero,
      ofNat_25, ofNat_50, ofNat_75, JSNum.lt, signedMag, h]
  | inf s =>
    cases s <;>
      simp [progressClass, JSVal.or, JSVal.truthy, JSVal.lt, JSVal.toNumber,
        ofNat_zero, ofNat_25, ofNat_50, ofNat_75, JSNum.lt]
  | fin s m =>
    by_cases hm : m = 0
    · subst hm
      have h : (0 : Int) < 25 * (quantum : Int) := by omega
      cases s <;>
        simp [progressClass, JSVal.or, JSVal.truthy, JSVal.lt, JSVal.toNumber, ofNat_zero,
          ofNat_25, ofNat_50, ofNat_75, JSNum.lt, signedMag, h]
    · simp [progressClass, JSVal.or, JSVal.truthy, JSVal.lt, JSVal.toNumber, hm,
        ofNat_zero, ofNat_25, ofNat_50, ofNat_75]

theorem signedMag_false (n : Nat) : signedMag false n = (n : Int) := rfl

theorem numberToString_zero (s : Bool) : numberToString (.fin s 0) = "0" := by
  simp [numberToString]

/-- Away from the six codes and from the names `Object.prototype` defines, the
lookup misses and `statusClass` gives the default class. -/
theorem statusClass_default (status : JSText)
    (hcode : status.toPropertyKey ∉
      ["draft", "submitted", "approved", "in_progress", "done", "cancelled"])
    (hproto : status.toPropertyKey ∉ objectPrototypeKeys) :
    statusClass status = .str "badge-light" := by
  simp only [List.mem_cons, List.mem_singleton, List.not_mem_nil, or_false, not_or] at hcode
  obtain ⟨h1, h2, h3, h4, h5, h6⟩ := hcode
  have hl : statusMap.lookup status.toPropertyKey = none := by
    simp only [statusMap, List.lookup, beq_eq_false_iff_ne.mpr h1, beq_eq_false_iff_ne.mpr h2,
      beq_eq_false_iff_ne.mpr h3, beq_eq_false_iff_ne.mpr h4, beq_eq_false_iff_ne.mpr h5,
      beq_eq_false_iff_ne.mpr h6]
  simp [statusClass, getProperty, hl, hproto, PropVal.truthy]

theorem mathRound_fin (s : Bool) (m : Nat) :
    mathRound (.fin s m) =
      if (2 * signedMag s m + quantum) / (2 * (quantum : Int)) = 0 then .fin s 0
      else .fin (decide ((2 * signedMag s m + quantum) / (2 * (quantum : Int)) < 0))
        (((2 * signedMag s m + quantum) / (2 * (quantum : Int))).natAbs * quantum) := rfl

/-- The function `Math.round` gives the integer `k` nearest to a finite
value, with `x - 1/2 < k ≤ x + 1/2`: a tie goes up. -/
theorem mathRound_nearest (s : Bool) (m : Nat) :
    ∃ k : Int, (mathRound (.fin s m)).units? = some (k * quantum) ∧
      2 * signedMag s m - quantum < 2 * (k * quantum) ∧
      2 * (k * quantum) ≤ 2 * signedMag s m + quantum := by
  have hq : (0 : Int) < quantum := by exact_mod_cast quantum_pos
  have hq2 : (0 : Int) < 2 * quantum := by omega
  refine ⟨(2 * signedMag s m + quantum) / (2 * (quantum : Int)), ?_, ?_, ?_⟩
  · rw [mathRound_fin]
    generalize (2 * signedMag s m + quantum) / (2 * (quantum : Int)) = k
    by_cases hk : k = 0
    · subst hk
      cases s <;> simp [JSNum.units?, signedMag]
    · rw [if_neg hk]
      by_cases hneg : k < 0
      · simp only [JSNum.units?, signedMag, hneg, decide_True, if_true, Nat.cast_mul,
          Int.natCast_natAbs, abs_of_neg hneg]
        simp
      · have hpos : 0 ≤ k := by omega
        simp only [JSNum.units?, signedMag, hneg, decide_False, Bool.false_eq_true, if_false,
          Nat.cast_mul, Int.natCast_natAbs, abs_of_nonneg hpos]
  · have h := Int.lt_ediv_add_one_mul_self (2 * signedMag s m + quantum) hq2
    generalize (2 * signedMag s m + quantum) / (2 * (quantum : Int)) = k at h ⊢
    nlinarith
  · have h := Int.ediv_mul_le (2 * signedMag s m + quantum) (ne_of_gt hq2)
    generalize (2 * signedMag s m + quantum) / (2 * (quantum : Int)) = k at h ⊢
    nlinarith

/-! ### Rounding -/

theorem bitLengthAux_le_iff (fuel : Nat) : ∀ n k : Nat, n ≤ fuel →
    (bitLengthAux fuel n ≤ k ↔ n < 2 ^ k) := by
  induction fuel with
  | zero =>
    intro n k hn
    have h0 : n = 0 := by omega
    subst h0
    simp [bitLengthAux]
  | succ f ih =>
    intro n k hn
    by_cases h0 : n = 0
    · subst h0
      simp [bitLengthAux]
    · simp only [bitLengthAux, if_neg h0]
      cases k with
      | zero => simp; omega
      | succ k =>
        have hhalf : n / 2 ≤ f := by omega
        rw [Nat.add_le_add_iff_right, ih (n / 2) k hhalf, pow_succ]
        omega

/-- The binary digits of `n` number at most `k` exactly when `n < 2^k`. -/
theorem bitLength_le_iff (n k : Nat) : bitLength n ≤ k ↔ n < 2 ^ k :=
  bitLengthAux_le_iff n n k (Nat.le_refl n)

theorem lt_two_pow_bitLength (n : Nat) : n < 2 ^ bitLength n :=
  (bitLength_le_iff n _).1 (Nat.le_refl _)

theorem bitLength_mono {n n' : Nat} (h : n ≤ n') : bitLength n ≤ bitLength n' :=
  (bitLength_le_iff n _).2 (Nat.lt_of_le_of_lt h (lt_two_pow_bitLength n'))

theorem two_pow_le_of_lt_bitLength {n k : Nat} (h : k < bitLength n) : 2 ^ k ≤ n := by
  by_contra hlt
  have := (bitLength_le_iff n k).2 (by omega)
  omega

/-- The rounded quotient is the quotient or the next integer. -/
theorem roundHalfEven_cases (a b : Nat) :
    roundHalfEven a b = a / b ∨ roundHalfEven a b = a / b + 1 := by
  unfold roundHalfEven
  split_ifs <;> simp

theorem le_roundHalfEven {a b k : Nat} (hb : 0 < b) (h : k * b ≤ a) :
    k ≤ roundHalfEven a b := by
  have hq : k ≤ a / b := (Nat.le_div_iff_mul_le hb).2 h
  rcases roundHalfEven_cases a b with e | e <;> omega

theorem roundHalfEven_le {a b k : Nat} (hb : 0 < b) (h : a ≤ k * b) :
    roundHalfEven a b ≤ k := by
  by_cases hlt : a / b < k
  · rcases roundHalfEven_cases a b with e | e <;> omega
  · have hq : k ≤ a / b := by omega
    have h1 : k * b ≤ a := (Nat.le_div_iff_mul_le hb).1 hq
    have h2 : a = k * b := by omega
    subst h2
    simp [roundHalfEven, Nat.mul_div_cancel _ hb, hb]

theorem roundHalfEven_mul_self {b : Nat} (k : Nat) (hb : 0 < b) :
    roundHalfEven (k * b) b = k := by
  simp [roundHalfEven, Nat.mul_div_cancel _ hb, hb]

theorem roundHalfEven_mono {a a' : Nat} (b : Nat) (h : a ≤ a') :
    roundHalfEven a b ≤ roundHalfEven a' b := by
  have hq : a / b ≤ a' / b := Nat.div_le_div_right h
  by_cases hlt : a / b < a' / b
  · rcases roundHalfEven_cases a b with e | e <;>
      rcases roundHalfEven_cases a' b with e' | e' <;> omega
  · have heq : a / b = a' / b := by omega
    have hr : a % b ≤ a' % b := by
      have h1 := Nat.div_add_mod a b
      have h2 := Nat.div_add_mod a' b
      rw [heq] at h1
      omega
    unfold roundHalfEven
    rw [heq]
    split_ifs <;> omega


theorem dropBits_mono {n n' : Nat} (d : Nat) (h : n ≤ n') : dropBits n d ≤ dropBits n' d := by
  unfold dropBits
  have := bitLength_mono (Nat.div_le_div_right (c := d) h)
  omega

/-- Rounding to a representable magnitude is monotone in the numerator. -/
theorem roundMag_mono {n n' d : Nat} (hd : 0 < d) (h : n ≤ n') :
    roundMag n d ≤ roundMag n' d := by
  have hs := dropBits_mono d h
  unfold roundMag
  by_cases heq : dropBits n d = dropBits n' d
  · rw [heq]
    exact Nat.mul_le_mul_right _ (roundHalfEven_mono _ h)
  · have hlt : dropBits n d < dropBits n' d := by omega
    have hb : 0 < d * 2 ^ dropBits n d := by positivity
    have hb' : 0 < d * 2 ^ dropBits n' d := by positivity
    -- the smaller value rounds to at most `2^(53 + s)`
    have h1 : bitLength (n / d) ≤ 53 + dropBits n d := by unfold dropBits; omega
    have h2 : n / d < 2 ^ (53 + dropBits n d) := (bitLength_le_iff _ _).1 h1
    have h3 : n < 2 ^ (53 + dropBits n d) * d := (Nat.div_lt_iff_lt_mul hd).1 h2
    have h4 : roundHalfEven n (d * 2 ^ dropBits n d) ≤ 2 ^ 53 := by
      apply roundHalfEven_le hb
      have : 2 ^ 53 * (d * 2 ^ dropBits n d) = 2 ^ (53 + dropBits n d) * d := by
        rw [pow_add]; ring
      omega
    -- the larger value rounds to at least `2^(52 + s')`
    have h5 : 52 + dropBits n' d < bitLength (n' / d) := by unfold dropBits at hlt ⊢; omega
    have h6 : 2 ^ (52 + dropBits n' d) ≤ n' / d := two_pow_le_of_lt_bitLength h5
    have h7 : 2 ^ (52 + dropBits n' d) * d ≤ n' := (Nat.le_div_iff_mul_le hd).1 h6
    have h8 : 2 ^ 52 ≤ roundHalfEven n' (d * 2 ^ dropBits n' d) := by
      apply le_roundHalfEven hb'
      have : 2 ^ 52 * (d * 2 ^ dropBits n' d) = 2 ^ (52 + dropBits n' d) * d := by
        rw [pow_add]; ring
      omega
    calc roundHalfEven n (d * 2 ^ dropBits n d) * 2 ^ dropBits n d
        ≤ 2 ^ 53 * 2 ^ dropBits n d := Nat.mul_le_mul_right _ h4
      _ = 2 ^ (53 + dropBits n d) := by rw [pow_add]
      _ ≤ 2 ^ (52 + dropBits n' d) := Nat.pow_le_pow_right (by decide) (by omega)
      _ = 2 ^ 52 * 2 ^ dropBits n' d := by rw [pow_add]
      _ ≤ roundHalfEven n' (d * 2 ^ dropBits n' d) * 2 ^ dropBits n' d :=
          Nat.mul_le_mul_right _ h8

/-- A magnitude with at most 53 significant bits is its own rounding. -/
theorem roundMag_exact {k d : Nat} (hd : 0 < d) (hk : k % 2 ^ (bitLength k - 53) = 0) :
    roundMag (k * d) d = k := by
  unfold roundMag dropBits
  rw [Nat.mul_div_cancel _ hd]
  obtain ⟨j, hj⟩ := Nat.dvd_of_mod_eq_zero hk
  have e : k * d = j * (d * 2 ^ (bitLength k - 53)) := by
    conv_lhs => rw [hj]
    ring
  rw [e, roundHalfEven_mul_self j (by positivity)]
  conv_rhs => rw [hj]
  ring

theorem ofRatio_exact (neg : Bool) {k d : Nat} (hd : 0 < d) (hk : IsDoubleMag k) :
    ofRatio neg (k * d) d = .fin neg k := by
  unfold ofRatio
  rw [roundMag_exact hd hk.2, if_neg (by have := hk.1; omega)]


/-! ### Sums -/

theorem JSNum.add_fin_fin (a : Bool) (m : Nat) (b : Bool) (n : Nat) :
    (JSNum.fin a m).add (.fin b n) =
      if signedMag a m + signedMag b n = 0 then .fin (a && b) 0
      else ofRatio (decide (signedMag a m + signedMag b n < 0))
        (signedMag a m + signedMag b n).natAbs 1 := rfl

theorem signedMag_zero (s : Bool) : signedMag s 0 = 0 := by
  cases s <;> rfl

theorem signedMag_natAbs (z : Int) : signedMag (decide (z < 0)) z.natAbs = z := by
  unfold signedMag
  by_cases h : z < 0
  · simp only [h, decide_True, if_true]; omega
  · simp only [h, decide_False, Bool.false_eq_true, if_false]; omega

/-- A sum that is representable is computed exactly. -/
theorem add_fin_exact (a : Bool) (m : Nat) (b : Bool) (n : Nat)
    (hz : IsDoubleMag (signedMag a m + signedMag b n).natAbs) :
    ((JSNum.fin a m).add (.fin b n)).units? = some (signedMag a m + signedMag b n) := by
  rw [JSNum.add_fin_fin]
  by_cases h0 : signedMag a m + signedMag b n = 0
  · rw [if_pos h0, h0]
    simp [JSNum.units?, signedMag_zero]
  · rw [if_neg h0]
    have := ofRatio_exact (decide (signedMag a m + signedMag b n < 0)) Nat.one_pos hz
    rw [Nat.mul_one] at this
    rw [this]
    simp [JSNum.units?, signedMag_natAbs]

/-- A sum that is exactly at most a double is, once rounded, at most it. -/
theorem add_fin_le_of_exact_le (a : Bool) (m : Nat) (b : Bool) (n : Nat) (e : Bool) (k : Nat)
    (hk : IsDoubleMag k) (h : signedMag a m + signedMag b n ≤ signedMag e k) :
    ((JSNum.fin a m).add (.fin b n)).le (.fin e k) = true := by
  rw [JSNum.add_fin_fin]
  have hkk : roundMag k 1 = k := by
    have := roundMag_exact Nat.one_pos hk.2
    rwa [Nat.mul_one] at this
  by_cases h0 : signedMag a m + signedMag b n = 0
  · rw [if_pos h0, JSNum.le_fin_fin, signedMag_zero]
    simp only [decide_eq_true_eq]
    omega
  · rw [if_neg h0]
    generalize signedMag a m + signedMag b n = z at h h0
    unfold ofRatio
    by_cases hneg : z < 0
    · simp only [hneg, decide_True]
      split_ifs
      · rfl
      · rw [JSNum.le_fin_fin]
        simp only [decide_eq_true_eq]
        cases e with
        | false => simp only [signedMag]; simp; omega
        | true =>
          have hle : k ≤ z.natAbs := by
            simp only [signedMag, if_true] at h
            omega
          have := roundMag_mono Nat.one_pos hle
          rw [hkk] at this
          simp only [signedMag, if_true]
          omega
    · simp only [hneg, decide_False]
      have he : e = false := by
        cases e with
        | false => rfl
        | true => simp only [signedMag, if_true] at h; omega
      subst he
      have hle : z.natAbs ≤ k := by
        simp only [signedMag] at h
        simp at h
        omega
      have := roundMag_mono Nat.one_pos hle
      rw [hkk] at this
      rw [if_neg (by have := hk.1; omega), JSNum.le_fin_fin]
      simp only [decide_eq_true_eq, signedMag]
      simp
      omega


/-! ### Order -/

theorem JSNum.le_inf_inf (a b : Bool) : (JSNum.inf a).le (.inf b) = (a || !b) := rfl

theorem overflowMag_pos : 0 < overflowMag := by
  unfold overflowMag; positivity

theorem roundMag_zero (d : Nat) : roundMag 0 d = 0 := by
  simp [roundMag, roundHalfEven]

theorem ofRatio_zero (s : Bool) (d : Nat) : ofRatio s 0 d = .fin s 0 := by
  have := overflowMag_pos
  simp only [ofRatio, roundMag_zero]
  rw [if_neg (by omega)]

theorem ofRatio_ne_nan (s : Bool) (n d : Nat) : ofRatio s n d ≠ .nan := by
  unfold ofRatio; split_ifs <;> simp

/-- The comparison `<=` is transitive. -/
theorem JSNum.le_trans {x y z : JSNum} (h1 : x.le y = true) (h2 : y.le z = true) :
    x.le z = true := by
  cases x with
  | nan => simp [JSNum.le] at h1
  | inf a =>
    cases y with
    | nan => simp [JSNum.le_nan_right] at h1
    | inf b =>
      cases z with
      | nan => simp [JSNum.le_nan_right] at h2
      | inf c => cases a <;> cases b <;> cases c <;> simp_all [JSNum.le_inf_inf]
      | fin c k => cases a <;> cases b <;> simp_all [JSNum.le_inf_inf, JSNum.le_inf_fin]
    | fin b n =>
      cases z with
      | nan => simp [JSNum.le_nan_right] at h2
      | inf c => cases a <;> cases c <;> simp_all [JSNum.le_inf_inf, JSNum.le_inf_fin, JSNum.le_fin_inf]
      | fin c k => simp_all [JSNum.le_inf_fin]
  | fin a m =>
    cases y with
    | nan => simp [JSNum.le_nan_right] at h1
    | inf b =>
      cases z with
      | nan => simp [JSNum.le_nan_right] at h2
      | inf c => cases b <;> cases c <;> simp_all [JSNum.le_inf_inf, JSNum.le_fin_inf]
      | fin c k => cases b <;> simp_all [JSNum.le_inf_fin, JSNum.le_fin_inf]
    | fin b n =>
      cases z with
      | nan => simp [JSNum.le_nan_right] at h2
      | inf c => simp_all [JSNum.le_fin_inf]
      | fin c k =>
        simp only [JSNum.le_fin_fin, decide_eq_true_eq] at h1 h2 ⊢
        omega

theorem JSNum.neg_inf_le {y : JSNum} (hy : y ≠ .nan) : (JSNum.inf true).le y = true := by
  cases y with
  | nan => exact absurd rfl hy
  | inf b => simp [JSNum.le_inf_inf]
  | fin b n => rfl

theorem JSNum.le_pos_inf {x : JSNum} (hx : x ≠ .nan) : x.le (.inf false) = true := by
  cases x with
  | nan => exact absurd rfl hx
  | inf a => simp [JSNum.le_inf_inf]
  | fin a m => rfl

/-- Rounding keeps the order of two exact values over the same denominator. -/
theorem ofRatio_signed_mono {a a' : Bool} {n n' d : Nat} (hd : 0 < d)
    (h : signedMag a n ≤ signedMag a' n') : (ofRatio a n d).le (ofRatio a' n' d) = true := by
  cases a <;> cases a'
  · -- both non-negative
    have hle : n ≤ n' := by simpa [signedMag] using h
    have hr := roundMag_mono hd hle
    unfold ofRatio
    split_ifs <;> simp [JSNum.le_inf_inf, JSNum.le_fin_inf, JSNum.le_inf_fin, JSNum.le_fin_fin,
      signedMag] <;> omega
  · -- non-negative below non-positive: both are zero
    have h0 : n = 0 ∧ n' = 0 := by
      simp only [signedMag, Bool.false_eq_true, if_false, if_true] at h
      omega
    obtain ⟨rfl, rfl⟩ := h0
    simp [ofRatio_zero, JSNum.le_fin_fin, signedMag]
  · -- a non-positive value is below a non-negative one
    unfold ofRatio
    split_ifs <;> simp [JSNum.le_inf_inf, JSNum.le_fin_inf, JSNum.le_inf_fin, JSNum.le_fin_fin,
      signedMag]
    omega
  · -- both non-positive
    have hle : n' ≤ n := by
      simp only [signedMag, if_true] at h
      omega
    have hr := roundMag_mono hd hle
    unfold ofRatio
    split_ifs <;> simp [JSNum.le_inf_inf, JSNum.le_fin_inf, JSNum.le_inf_fin, JSNum.le_fin_fin,
      signedMag] <;> omega

theorem signedMag_mul (a : Bool) (n k : Nat) : signedMag a (n * k) = signedMag a n * k := by
  cases a <;> simp [signedMag]

theorem JSNum.div_fin_pos (a : Bool) (m : Nat) {t : Nat} (ht : 0 < t) :
    (JSNum.fin a m).div (.fin false t) = ofRatio a (m * quantum) t := by
  simp [JSNum.div, Nat.ne_of_gt ht]

theorem JSNum.mul_fin_fin (a : Bool) (m : Nat) (b : Bool) (n : Nat) :
    (JSNum.fin a m).mul (.fin b n) = ofRatio (a != b) (m * n) quantum := rfl

/-- Division by a positive finite Number keeps the order. -/
theorem JSNum.div_mono {x y : JSNum} {t : Nat} (ht : 0 < t) (h : x.le y = true) :
    (x.div (.fin false t)).le (y.div (.fin false t)) = true := by
  cases x with
  | nan => simp [JSNum.le] at h
  | inf a =>
    cases y with
    | nan => simp [JSNum.le_nan_right] at h
    | inf b => simpa [JSNum.div] using h
    | fin b n =>
      rw [JSNum.le_inf_fin] at h
      subst h
      rw [JSNum.div_fin_pos b n ht]
      exact JSNum.neg_inf_le (ofRatio_ne_nan _ _ _)
  | fin a m =>
    cases y with
    | nan => simp [JSNum.le_nan_right] at h
    | inf b =>
      rw [JSNum.le_fin_inf] at h
      have hb : b = false := by cases b <;> simp_all
      subst hb
      rw [JSNum.div_fin_pos a m ht]
      exact JSNum.le_pos_inf (ofRatio_ne_nan _ _ _)
    | fin b n =>
      rw [JSNum.le_fin_fin, decide_eq_true_eq] at h
      rw [JSNum.div_fin_pos a m ht, JSNum.div_fin_pos b n ht]
      apply ofRatio_signed_mono ht
      rw [signedMag_mul, signedMag_mul]
      exact Int.mul_le_mul_of_nonneg_right h (Int.ofNat_nonneg _)

/-- Multiplication by a positive finite Number keeps the order. -/
theorem JSNum.mul_mono {x y : JSNum} {c : Nat} (hc : 0 < c) (h : x.le y = true) :
    (x.mul (.fin false c)).le (y.mul (.fin false c)) = true := by
  have hq := quantum_pos
  have hc0 : c ≠ 0 := Nat.ne_of_gt hc
  cases x with
  | nan => simp [JSNum.le] at h
  | inf a =>
    cases y with
    | nan => simp [JSNum.le_nan_right] at h
    | inf b => simpa [JSNum.mul, hc0] using h
    | fin b n =>
      rw [JSNum.le_inf_fin] at h
      subst h
      rw [JSNum.mul_fin_fin]
      simp only [JSNum.mul, hc0, if_false]
      exact JSNum.neg_inf_le (ofRatio_ne_nan _ _ _)
  | fin a m =>
    cases y with
    | nan => simp [JSNum.le_nan_right] at h
    | inf b =>
      rw [JSNum.le_fin_inf] at h
      have hb : b = false := by cases b <;> simp_all
      subst hb
      rw [JSNum.mul_fin_fin]
      simp only [JSNum.mul, hc0, if_false]
      exact JSNum.le_pos_inf (ofRatio_ne_nan _ _ _)
    | fin b n =>
      rw [JSNum.le_fin_fin, decide_eq_true_eq] at h
      rw [JSNum.mul_fin_fin, JSNum.mul_fin_fin]
      simp only [Bool.bne_false]
      apply ofRatio_signed_mono hq
      rw [signedMag_mul, signedMag_mul]
      exact Int.mul_le_mul_of_nonneg_right h (Int.ofNat_nonneg _)

/-- The units of `Math.round` of a finite value. -/
theorem mathRound_units (s : Bool) (m : Nat) :
    ∃ s' m', mathRound (.fin s m) = .fin s' m' ∧
      signedMag s' m' = (2 * signedMag s m + quantum) / (2 * (quantum : Int)) * quantum := by
  rw [mathRound_fin]
  generalize (2 * signedMag s m + quantum) / (2 * (quantum : Int)) = k
  by_cases hk : k = 0
  · subst hk
    exact ⟨s, 0, by simp, by simp [signedMag_zero]⟩
  · rw [if_neg hk]
    refine ⟨_, _, rfl, ?_⟩
    rw [signedMag_mul, signedMag_natAbs]

/-- The function `Math.round` keeps the order. -/
theorem mathRound_mono {x y : JSNum} (h : x.le y = true) :
    (mathRound x).le (mathRound y) = true := by
  have hq : (0 : Int) < quantum := by exact_mod_cast quantum_pos
  cases x with
  | nan => simp [JSNum.le] at h
  | inf a =>
    cases y with
    | nan => simp [JSNum.le_nan_right] at h
    | inf b => simpa [mathRound] using h
    | fin b n =>
      rw [JSNum.le_inf_fin] at h
      subst h
      obtain ⟨s', m', e, -⟩ := mathRound_units b n
      rw [e]
      rfl
  | fin a m =>
    cases y with
    | nan => simp [JSNum.le_nan_right] at h
    | inf b =>
      rw [JSNum.le_fin_inf] at h
      have hb : b = false := by cases b <;> simp_all
      subst hb
      obtain ⟨s', m', e, -⟩ := mathRound_units a m
      rw [e]
      rfl
    | fin b n =>
      rw [JSNum.le_fin_fin, decide_eq_true_eq] at h
      obtain ⟨s1, m1, e1, u1⟩ := mathRound_units a m
      obtain ⟨s2, m2, e2, u2⟩ := mathRound_units b n
      rw [e1, e2, JSNum.le_fin_fin, decide_eq_true_eq, u1, u2]
      apply Int.mul_le_mul_of_nonneg_right _ (le_of_lt hq)
      apply Int.ediv_le_ediv (by omega)
      omega

/-! ### Progress, sums and status classes in order -/

section Order

set_option exponentiation.threshold 4096
set_option maxRecDepth 100000

theorem calculateProgress_num {current total : JSNum} (ht : (JSVal.num total).truthy = true) :
    calculateProgress (.num current) (.num total) =
      .num (mathRound ((current.div total).mul (ofNat 100))) := by
  simp [calculateProgress, ht, JSVal.div, JSVal.mul, JSVal.toNumber]

theorem truthy_fin_pos {t : Nat} (ht : 0 < t) (s : Bool) :
    (JSVal.num (.fin s t)).truthy = true := by
  simp [JSVal.truthy, Nat.ne_of_gt ht]

/-- With a positive finite `total`, `calculateProgress` keeps the order of
`current`. -/
theorem calculateProgress_mono_aux {c₁ c₂ : JSNum} {t : Nat} (ht : 0 < t)
    (h : c₁.le c₂ = true) :
    ∃ r₁ r₂, calculateProgress (.num c₁) (.num (.fin false t)) = .num r₁ ∧
      calculateProgress (.num c₂) (.num (.fin false t)) = .num r₂ ∧ r₁.le r₂ = true := by
  have hq := quantum_pos
  refine ⟨_, _, calculateProgress_num (truthy_fin_pos ht false),
    calculateProgress_num (truthy_fin_pos ht false), ?_⟩
  rw [ofNat_100]
  exact mathRound_mono (JSNum.mul_mono (by omega) (JSNum.div_mono ht h))

theorem isDoubleMag_quantum : IsDoubleMag quantum := by decide

theorem isDoubleMag_100 : IsDoubleMag (100 * quantum) := by decide

theorem mathRound_zero : mathRound (.fin false 0) = .fin false 0 := by decide

theorem mathRound_100 : mathRound (.fin false (100 * quantum)) = .fin false (100 * quantum) := by
  decide

/-- With a positive finite `total`, `calculateProgress(0, total)` is `0`. -/
theorem calculateProgress_zero {t : Nat} (ht : 0 < t) :
    calculateProgress (.num (.fin false 0)) (.num (.fin false t)) = .num (.fin false 0) := by
  rw [calculateProgress_num (truthy_fin_pos ht false), ofNat_100, JSNum.div_fin_pos _ _ ht,
    Nat.zero_mul, ofRatio_zero, JSNum.mul_fin_fin, Nat.zero_mul, ofRatio_zero]
  simp only [bne_self_eq_false]
  rw [mathRound_zero]

/-- With a positive finite `total`, `calculateProgress(total, total)` is `100`. -/
theorem calculateProgress_self {t : Nat} (ht : 0 < t) :
    calculateProgress (.num (.fin false t)) (.num (.fin false t)) =
      .num (.fin false (100 * quantum)) := by
  have hq := quantum_pos
  have e1 : ofRatio false (t * quantum) t = .fin false quantum := by
    rw [Nat.mul_comm]
    exact ofRatio_exact false ht isDoubleMag_quantum
  rw [calculateProgress_num (truthy_fin_pos ht false), ofNat_100, JSNum.div_fin_pos _ _ ht, e1,
    JSNum.mul_fin_fin]
  simp only [bne_self_eq_false]
  rw [Nat.mul_comm quantum (100 * quantum), ofRatio_exact false hq isDoubleMag_100, mathRound_100]

/-- A finite sum is the rounding of the exact sum. -/
theorem JSNum.add_fin_eq_ofRatio (a : Bool) (m : Nat) (b : Bool) (n : Nat) :
    ∃ σ, (JSNum.fin a m).add (.fin b n) =
        ofRatio σ (signedMag a m + signedMag b n).natAbs 1 ∧
      signedMag σ (signedMag a m + signedMag b n).natAbs = signedMag a m + signedMag b n := by
  rw [JSNum.add_fin_fin]
  by_cases h0 : signedMag a m + signedMag b n = 0
  · refine ⟨a && b, ?_, ?_⟩
    · rw [if_pos h0, h0]
      simp [ofRatio_zero]
    · rw [h0]
      simp [signedMag_zero]
  · exact ⟨_, by rw [if_neg h0], signedMag_natAbs _⟩

/-- Addition of finite Numbers keeps the order. -/
theorem JSNum.add_fin_mono {a a' b b' : Bool} {m m' n n' : Nat}
    (h : signedMag a' m' + signedMag b' n' ≤ signedMag a m + signedMag b n) :
    ((JSNum.fin a' m').add (.fin b' n')).le ((JSNum.fin a m).add (.fin b n)) = true := by
  obtain ⟨σ, e, u⟩ := JSNum.add_fin_eq_ofRatio a m b n
  obtain ⟨σ', e', u'⟩ := JSNum.add_fin_eq_ofRatio a' m' b' n'
  rw [e, e']
  apply ofRatio_signed_mono Nat.one_pos
  rw [u, u']
  exact h

/-- The default class or an inherited member is what a status outside the six
codes gets. -/
theorem statusClass_unrecognised (status : JSText) (hcode : status.toPropertyKey ∉ statusCodes) :
    statusClass status = .str "badge-light" ∨
      statusClass status = .inherited status.toPropertyKey := by
  by_cases hproto : status.toPropertyKey ∈ objectPrototypeKeys
  · right
    have hcode' := hcode
    simp only [statusCodes, List.mem_cons, List.mem_singleton, List.not_mem_nil, or_false,
      not_or] at hcode'
    obtain ⟨h1, h2, h3, h4, h5, h6⟩ := hcode'
    have hl : statusMap.lookup status.toPropertyKey = none := by
      simp only [statusMap, List.lookup, beq_eq_false_iff_ne.mpr h1, beq_eq_false_iff_ne.mpr h2,
        beq_eq_false_iff_ne.mpr h3, beq_eq_false_iff_ne.mpr h4, beq_eq_false_iff_ne.mpr h5,
        beq_eq_false_iff_ne.mpr h6]
    simp [statusClass, getProperty, hl, hproto, PropVal.truthy]
  · left
    exact statusClass_default status hcode hproto

end Order

/-! ## The claims -/

section Claims

set_option exponentiation.threshold 4096
set_option maxRecDepth 100000

/-- C1: `progressClass` sorts every Number field value `v` into one of four
pairwise distinct classes by the thresholds 25, 50 and 75, each range
including its lower bound and excluding its upper bound: `v < 25` gives the
danger class, `25 <= v < 50` the warning class, `50 <= v < 75` the info class
and `75 <= v` the success class; away from `NaN` each class is given for no
other value. -/
theorem progressClass_partition (v : JSNum) :
    (v.lt (ofNat 25) = true → progressClass (.num v) = "bg-danger") ∧
    ((ofNat 25).le v = true ∧ v.lt (ofNat 50) = true →
      progressClass (.num v) = "bg-warning") ∧
    ((ofNat 50).le v = true ∧ v.lt (ofNat 75) = true →
      progressClass (.num v) = "bg-info") ∧
    ((ofNat 75).le v = true → progressClass (.num v) = "bg-success") ∧
    (v ≠ .nan →
      (progressClass (.num v) = "bg-danger" → v.lt (ofNat 25) = true) ∧
      (progressClass (.num v) = "bg-warning" →
        (ofNat 25).le v = true ∧ v.lt (ofNat 50) = true) ∧
      (progressClass (.num v) = "bg-info" →
        (ofNat 50).le v = true ∧ v.lt (ofNat 75) = true) ∧
      (progressClass (.num v) = "bg-success" → (ofNat 75).le v = true)) ∧
    progressClass (.num v) ∈ ["bg-danger", "bg-warning", "bg-info", "bg-success"] ∧
    ["bg-danger", "bg-warning", "bg-info", "bg-success"].Nodup := by
  have hq := quantum_pos
  rw [progressClass_num]
  simp only [ofNat_25, ofNat_50, ofNat_75]
  refine ⟨?_, ?_, ?_, ?_, ?_, ?_, by decide⟩
  · intro h; simp [h]
  · rintro ⟨h1, h2⟩
    cases v with
    | nan => simp [JSNum.le_nan_right] at h1
    | inf s => cases s <;> simp_all [JSNum.le_fin_inf, JSNum.lt_inf_fin]
    | fin s m =>
      simp only [JSNum.le_fin_fin, JSNum.lt_fin_fin, decide_eq_true_eq, signedMag_false,
        Nat.cast_mul, Nat.cast_ofNat, reduceCtorEq, false_or] at h1 h2 ⊢
      generalize signedMag s m = x at *
      split_ifs <;> first | rfl | omega
  · rintro ⟨h1, h2⟩
    cases v with
    | nan => simp [JSNum.le_nan_right] at h1
    | inf s => cases s <;> simp_all [JSNum.le_fin_inf, JSNum.lt_inf_fin]
    | fin s m =>
      simp only [JSNum.le_fin_fin, JSNum.lt_fin_fin, decide_eq_true_eq, signedMag_false,
        Nat.cast_mul, Nat.cast_ofNat, reduceCtorEq, false_or] at h1 h2 ⊢
      generalize signedMag s m = x at *
      split_ifs <;> first | rfl | omega
  · intro h1
    cases v with
    | nan => simp [JSNum.le_nan_right] at h1
    | inf s => cases s <;> simp_all [JSNum.le_fin_inf, JSNum.lt_inf_fin]
    | fin s m =>
      simp only [JSNum.le_fin_fin, JSNum.lt_fin_fin, decide_eq_true_eq, signedMag_false,
        Nat.cast_mul, Nat.cast_ofNat, reduceCtorEq, false_or] at h1 ⊢
      generalize signedMag s m = x at *
      split_ifs <;> first | rfl | omega
  · intro hv
    cases v with
    | nan => exact absurd rfl hv
    | inf s => cases s <;> simp [JSNum.le_fin_inf, JSNum.lt_inf_fin]
    | fin s m =>
      simp only [JSNum.le_fin_fin, JSNum.lt_fin_fin, decide_eq_true_eq, signedMag_false,
        Nat.cast_mul, Nat.cast_ofNat, reduceCtorEq, false_or]
      generalize signedMag s m = x
      split_ifs <;> simp <;> omega
  · split_ifs <;> simp

/-- C2: the status `"constructor"` is none of the six codes, yet `statusClass`
does not give it the default class that `"unknown"` gets: the lookup in the
object literal finds the member of that name inherited from
`Object.prototype`, which is truthy, so the fallback is not taken. -/
theorem statusClass_inherited_key :
    "constructor" ∉ ["draft", "submitted", "approved", "in_progress", "done", "cancelled"] ∧
    statusClass (.str "unknown") = .str "badge-light" ∧
    statusClass (.str "constructor") = .inherited "constructor" ∧
    statusClass (.str "constructor") ≠ statusClass (.str "unknown") := by
  decide

/-- C3: for Numbers `current` and `total` with `total` neither zero nor `NaN`,
`calculateProgress(current, total)` is `Math.round(current / total * 100)`,
and for a finite product that is the integer `k` nearest to it
(`x - 1/2 < k ≤ x + 1/2`). -/
theorem calculateProgress_round (current total : JSNum)
    (ht : (JSVal.num total).truthy = true) :
    calculateProgress (.num current) (.num total) =
      .num (mathRound ((current.div total).mul (ofNat 100))) ∧
    ∀ s m, (current.div total).mul (ofNat 100) = .fin s m →
      ∃ k : Int, calculateProgress (.num current) (.num total) = .num (mathRound (.fin s m)) ∧
        (mathRound (.fin s m)).units? = some (k * quantum) ∧
        2 * signedMag s m - quantum < 2 * (k * quantum) ∧
        2 * (k * quantum) ≤ 2 * signedMag s m + quantum := by
  have h : calculateProgress (.num current) (.num total) =
      .num (mathRound ((current.div total).mul (ofNat 100))) := by
    simp [calculateProgress, ht, JSVal.div, JSVal.mul, JSVal.toNumber]
  refine ⟨h, ?_⟩
  intro s m hp
  obtain ⟨k, hk1, hk2, hk3⟩ := mathRound_nearest s m
  exact ⟨k, by rw [h, hp], hk1, hk2, hk3⟩

/-- Witness of C3, at the two inputs the specification names: `calculateProgress(50, 100)`
is `50` and `calculateProgress(33, 100)` is `33`. -/
theorem calculateProgress_round_witness :
    (JSVal.num (ofNat 100)).truthy = true ∧
    calculateProgress (.num (ofNat 50)) (.num (ofNat 100)) = .num (ofNat 50) ∧
    calculateProgress (.num (ofNat 33)) (.num (ofNat 100)) = .num (ofNat 33) :=
  ⟨by decide,
   (calculateProgress_round (ofNat 50) (ofNat 100) (by decide)).1.trans (by decide),
   (calculateProgress_round (ofNat 33) (ofNat 100) (by decide)).1.trans (by decide)⟩

/-- C4: for all Numbers, `validateQuantity(current, previous, master)` is true
exactly when `current + previous <= master`, the sum and the comparison being
those of Numbers; over the exact values, it is true whenever the exact sum is
at most `master`, and exactly then when the exact sum is a double;
`validateQuantity(5, 3, 10)` is true and `validateQuantity(6, 5, 10)` is
false. -/
theorem validateQuantity_iff :
    (∀ current previous master : JSNum,
      validateQuantity (.num current) (.num previous) (.num master) = true ↔
        (current.add previous).le master = true) ∧
    (∀ (a : Bool) (m : Nat) (b : Bool) (n : Nat) (e : Bool) (k : Nat),
      IsDoubleMag k → signedMag a m + signedMag b n ≤ signedMag e k →
        validateQuantity (.num (.fin a m)) (.num (.fin b n)) (.num (.fin e k)) = true) ∧
    (∀ (a : Bool) (m : Nat) (b : Bool) (n : Nat) (e : Bool) (k : Nat),
      IsDoubleMag (signedMag a m + signedMag b n).natAbs →
        (validateQuantity (.num (.fin a m)) (.num (.fin b n)) (.num (.fin e k)) = true ↔
          signedMag a m + signedMag b n ≤ signedMag e k)) ∧
    validateQuantity (.num (ofNat 5)) (.num (ofNat 3)) (.num (ofNat 10)) = true ∧
    validateQuantity (.num (ofNat 6)) (.num (ofNat 5)) (.num (ofNat 10)) = false := by
  refine ⟨fun c p m => Iff.rfl, ?_, ?_, by decide, by decide⟩
  · intro a m b n e k hk h
    exact add_fin_le_of_exact_le a m b n e k hk h
  · intro a m b n e k hz
    have hu := add_fin_exact a m b n hz
    simp only [validateQuantity, JSVal.add, JSVal.le, JSVal.toNumber]
    generalize (JSNum.fin a m).add (.fin b n) = r at hu
    cases r with
    | nan => simp [JSNum.units?] at hu
    | inf s => simp [JSNum.units?] at hu
    | fin s j =>
      simp only [JSNum.units?, Option.some.injEq] at hu
      rw [JSNum.le_fin_fin, hu]
      simp

/-- Where the exact sum is not a double the sum is rounded: `2^53 + 1` gives
`2^53`, so `validateQuantity(2^53, 1, 2^53)` is true. -/
theorem validateQuantity_rounded_sum :
    (ofNat (2 ^ 53)).add (ofNat 1) = ofNat (2 ^ 53) ∧
    validateQuantity (.num (ofNat (2 ^ 53))) (.num (ofNat 1)) (.num (ofNat (2 ^ 53))) = true := by
  decide

/-- Where the quotient is not a double the product is not exact either:
`29 / 200 * 100` is computed just below `14.5`, so `calculateProgress(29, 200)`
is `14`. -/
theorem calculateProgress_rounded_product :
    ((ofNat 29).div (ofNat 200)).mul (ofNat 100) ≠ ofDecimal 145 1 ∧
    calculateProgress (.num (ofNat 29)) (.num (ofNat 200)) = .num (ofNat 14) := by
  decide

/-- C5: whatever `current` is, `calculateProgress(current, total)` is `0` when
`total` is falsy (a zero, `NaN`, `undefined`, `null` or `false`): the division
is not evaluated. -/
theorem calculateProgress_falsy_total (current total : JSVal)
    (ht : total.truthy = false) :
    calculateProgress current total = .num (.fin false 0) := by
  simp [calculateProgress, ht, ofNat_zero]

/-- Witness of C5, at the input the specification names: `calculateProgress(0, 0)` is `0`,
as it is for an absent `total`. -/
theorem calculateProgress_falsy_total_witness :
    calculateProgress (.num (ofNat 0)) (.num (ofNat 0)) = .num (ofNat 0) ∧
    calculateProgress (.num (ofNat 7)) .undefined = .num (ofNat 0) :=
  ⟨(calculateProgress_falsy_total (.num (ofNat 0)) (.num (ofNat 0)) (by decide)).trans
      (congrArg JSVal.num ofNat_zero.symm),
   (calculateProgress_falsy_total (.num (ofNat 7)) .undefined (by decide)).trans
      (congrArg JSVal.num ofNat_zero.symm)⟩

/-- C6: `progressStyle` renders a Number that is neither zero nor `NaN` as
`width: ` followed by the Number's own string and `%`, whatever its size or
sign, and a falsy field (a zero, `NaN`, or no value) as `width: 0%`. -/
theorem progressStyle_verbatim :
    (∀ v : JSNum, (JSVal.num v).truthy = true →
      progressStyle (.num v) = "width: " ++ numberToString v ++ "%") ∧
    (∀ field : JSVal, field.truthy = false → progressStyle field = "width: 0%") ∧
    progressStyle (.num (ofNat 5).neg) = "width: -5%" ∧
    progressStyle (.num (ofNat 150)) = "width: 150%" ∧
    progressStyle (.num (ofNat 0)) = "width: 0%" ∧
    progressStyle .undefined = "width: 0%" := by
  refine ⟨?_, ?_, by decide, by decide, by decide, by decide⟩
  · intro v hv
    simp [progressStyle, or_zero_of_truthy _ hv, JSVal.toStr]
  · intro field hf
    simp only [progressStyle, or_zero_of_falsy _ hf, JSVal.toStr, numberToString_zero]
    decide

/-- C7 as the code has it: `statusClass("approved")` is `"badge-success"` and
`statusClass("unknown")` is `"badge-light"`. -/
theorem statusClass_examples :
    statusClass (.str "approved") = .str "badge-success" ∧
    statusClass (.str "unknown") = .str "badge-light" := by
  decide

/-- Counterexample to C7 as stated: `statusClass("approved")` is not `"success-badge"`, and
`statusClass("unknown")` is not `"light-badge"`. -/
theorem statusClass_examples_counterexample :
    statusClass (.str "approved") ≠ .str "success-badge" ∧
    statusClass (.str "unknown") ≠ .str "light-badge" := by
  decide

/-- C8 as the code has it: `progressClass` returns `"bg-danger"` for `v < 25`,
`"bg-warning"` for `25 <= v < 50`, `"bg-info"` for `50 <= v < 75` and
`"bg-success"` for `75 <= v`; `progressClass(24.999)` is `"bg-danger"`,
`progressClass(25)` is `"bg-warning"` and `progressClass(75)` is
`"bg-success"`. -/
theorem progressClass_literals :
    (∀ v : JSNum,
      (v.lt (ofNat 25) = true → progressClass (.num v) = "bg-danger") ∧
      ((ofNat 25).le v = true ∧ v.lt (ofNat 50) = true →
        progressClass (.num v) = "bg-warning") ∧
      ((ofNat 50).le v = true ∧ v.lt (ofNat 75) = true →
        progressClass (.num v) = "bg-info") ∧
      ((ofNat 75).le v = true → progressClass (.num v) = "bg-success")) ∧
    progressClass (.num (ofDecimal 24999 3)) = "bg-danger" ∧
    progressClass (.num (ofNat 25)) = "bg-warning" ∧
    progressClass (.num (ofNat 75)) = "bg-success" := by
  refine ⟨fun v => ?_, by decide, by decide, by decide⟩
  have hq := quantum_pos
  rw [progressClass_num]
  simp only [ofNat_25, ofNat_50, ofNat_75]
  cases v with
  | nan => simp [JSNum.le_nan_right]
  | inf s => cases s <;> simp [JSNum.le_fin_inf, JSNum.lt_inf_fin]
  | fin s m =>
    simp only [JSNum.le_fin_fin, JSNum.lt_fin_fin, decide_eq_true_eq, signedMag_false,
      Nat.cast_mul, Nat.cast_ofNat, reduceCtorEq, false_or]
    generalize signedMag s m = x
    split_ifs <;> simp <;> omega

/-- Counterexample to C8 as stated: the strings returned are not `"danger"`, `"warning"`,
`"info"` and `"success"`; `progressClass(24.999)` is not `"danger"`,
`progressClass(25)` is not `"warning"`, `progressClass(75)` is not
`"success"`. -/
theorem progressClass_literals_counterexample :
    (ofDecimal 24999 3).lt (ofNat 25) = true ∧
    progressClass (.num (ofDecimal 24999 3)) ≠ "danger" ∧
    progressClass (.num (ofNat 25)) ≠ "warning" ∧
    progressClass (.num (ofNat 75)) ≠ "success" := by
  decide

/-- C9: a field with no value (falsy: `undefined`, `null`, `false`) is read as
`0` by both getters: `progressStyle` gives what it gives for `0`, and
`progressClass` gives what it gives for `0`, the danger class. -/
theorem progress_absent_as_zero (field : JSVal) (hf : field.truthy = false) :
    progressStyle field = progressStyle (.num (ofNat 0)) ∧
    progressClass field = progressClass (.num (ofNat 0)) ∧
    progressClass field = "bg-danger" := by
  have h0 : (JSVal.num (ofNat 0)).truthy = false := by decide
  have hq := quantum_pos
  have h25 : (0 : Int) < 25 * (quantum : Int) := by omega
  refine ⟨?_, ?_, ?_⟩
  · simp only [progressStyle, or_zero_of_falsy _ hf, or_zero_of_falsy _ h0]
  · simp only [progressClass, or_zero_of_falsy _ hf, or_zero_of_falsy _ h0]
  · simp [progressClass, or_zero_of_falsy _ hf, JSVal.lt, JSVal.toNumber, ofNat_25,
      JSNum.lt_fin_fin, signedMag, h25]

/-- Witness of C9, at `undefined`, `null` and `false`. -/
theorem progress_absent_as_zero_witness :
    (progressStyle .undefined = progressStyle (.num (ofNat 0)) ∧
      progressClass .undefined = progressClass (.num (ofNat 0)) ∧
      progressClass .undefined = "bg-danger") ∧
    (progressStyle .null = progressStyle (.num (ofNat 0)) ∧
      progressClass .null = progressClass (.num (ofNat 0)) ∧
      progressClass .null = "bg-danger") ∧
    (progressStyle (.bool false) = progressStyle (.num (ofNat 0)) ∧
      progressClass (.bool false) = progressClass (.num (ofNat 0)) ∧
      progressClass (.bool false) = "bg-danger") :=
  ⟨progress_absent_as_zero .undefined rfl, progress_absent_as_zero .null rfl,
   progress_absent_as_zero (.bool false) rfl⟩

/-- C10: with the currency absent or empty, `formatCurrency` returns what
`formatCurrency(amount, "USD")` returns, and a non-empty code is handed to the
formatter unchanged, with the locale `en-US` and the style `currency`. -/
theorem formatCurrency_default_usd {α : Type}
    (intlFormat : String → NumberFormatOptions → JSVal → α) (amount : JSVal) :
    formatCurrency intlFormat amount .undefined =
      formatCurrency intlFormat amount (.str "USD") ∧
    formatCurrency intlFormat amount .null = formatCurrency intlFormat amount (.str "USD") ∧
    formatCurrency intlFormat amount (.str "") =
      formatCurrency intlFormat amount (.str "USD") ∧
    ∀ code : String, code ≠ "" →
      formatCurrency intlFormat amount (.str code) =
        intlFormat "en-US" { style := "currency", currency := .str code } amount := by
  refine ⟨rfl, rfl, rfl, ?_⟩
  intro code hc
  simp [formatCurrency, JSText.truthy, hc]

/-- C11: `formatCurrency(1234.5, "USD")` is `"$1,234.50"`, which contains
`$1,234.50`: the dollar sign first, a comma between the thousands and the
hundreds, and two decimals. -/
theorem formatCurrency_usd_example :
    (ofDecimal 12345 1).IsDouble ∧
    formatCurrency intlNumberFormat (.num (ofDecimal 12345 1)) (.str "USD") =
      some "$1,234.50" ∧
    "$1,234.50".data <:+: "$1,234.50".data := by
  refine ⟨by decide, by decide, List.infix_refl _⟩

/-- C13 as the code has it: when the product `current / total * 100`, as the
code computes it in double precision, is `n + 1/2` for an integer `n`, with
`total` neither zero nor `NaN`, `calculateProgress` gives `n + 1`: a tie of
the computed product goes toward `+∞`. -/
theorem calculateProgress_tie (current total : JSNum) (ht : (JSVal.num total).truthy = true)
    (n : Int) (s : Bool) (m : Nat)
    (hp : (current.div total).mul (ofNat 100) = .fin s m)
    (htie : 2 * signedMag s m = (2 * n + 1) * quantum) :
    ∃ r, calculateProgress (.num current) (.num total) = .num r ∧
      r.units? = some ((n + 1) * quantum) := by
  have hq : (0 : Int) < quantum := by exact_mod_cast quantum_pos
  obtain ⟨s', m', e, u⟩ := mathRound_units s m
  refine ⟨.fin s' m', by rw [calculateProgress_num ht, hp, e], ?_⟩
  have hk : (2 * signedMag s m + quantum) / (2 * (quantum : Int)) = n + 1 := by
    have : 2 * signedMag s m + quantum = (n + 1) * (2 * (quantum : Int)) := by
      rw [htie]; ring
    rw [this]
    exact Int.mul_ediv_cancel _ (by omega)
  simp only [JSNum.units?, u, hk]

/-- Witness of C13, at the inputs the claim names: `calculateProgress(1, 200)` is
`1`, and `calculateProgress(-1, 200)` is the zero `-0`, not `-1`. -/
theorem calculateProgress_tie_witness :
    (∃ r, calculateProgress (.num (ofNat 1)) (.num (ofNat 200)) = .num r ∧
      r.units? = some (((0 : Int) + 1) * quantum)) ∧
    (∃ r, calculateProgress (.num (ofNat 1).neg) (.num (ofNat 200)) = .num r ∧
      r.units? = some (((-1 : Int) + 1) * quantum)) ∧
    calculateProgress (.num (ofNat 1)) (.num (ofNat 200)) = .num (ofNat 1) ∧
    calculateProgress (.num (ofNat 1).neg) (.num (ofNat 200)) = .num (.fin true 0) ∧
    calculateProgress (.num (ofNat 1).neg) (.num (ofNat 200)) ≠ .num (ofNat 1).neg :=
  ⟨calculateProgress_tie (ofNat 1) (ofNat 200) (by decide) 0 false (quantum / 2)
      (by decide) (by decide),
   calculateProgress_tie (ofNat 1).neg (ofNat 200) (by decide) (-1) true (quantum / 2)
      (by decide) (by decide),
   by decide, by decide, by decide⟩

/-- Counterexample to C13 as stated: `29 / 200 * 100` is exactly `14 + 1/2` and
`23 / 40 * 100` is exactly `57 + 1/2`, yet `calculateProgress(29, 200)` is
`14`, not `15`, and `calculateProgress(23, 40)` is `57`, not `58`: the
quotient is rounded to a double before it is scaled, and the computed product
falls just below the tie. -/
theorem calculateProgress_tie_counterexample :
    (ofNat 29 = .fin false (29 * quantum) ∧ ofNat 200 = .fin false (200 * quantum) ∧
      2 * (29 * (quantum : Int)) * 100 = (2 * 14 + 1) * (200 * (quantum : Int)) ∧
      calculateProgress (.num (ofNat 29)) (.num (ofNat 200)) = .num (ofNat 14) ∧
      calculateProgress (.num (ofNat 29)) (.num (ofNat 200)) ≠ .num (ofNat 15)) ∧
    (ofNat 23 = .fin false (23 * quantum) ∧ ofNat 40 = .fin false (40 * quantum) ∧
      2 * (23 * (quantum : Int)) * 100 = (2 * 57 + 1) * (40 * (quantum : Int)) ∧
      calculateProgress (.num (ofNat 23)) (.num (ofNat 40)) = .num (ofNat 57) ∧
      calculateProgress (.num (ofNat 23)) (.num (ofNat 40)) ≠ .num (ofNat 58)) := by
  decide

/-- C14: for finite Numbers with `total > 0` and `0 <= current <= total`,
`calculateProgress(current, total)` is an integer `k` with `0 ≤ k ≤ 100`;
`calculateProgress(0, total)` is `0` and `calculateProgress(total, total)` is
`100`. -/
theorem calculateProgress_range (s : Bool) (m t : Nat) (ht : 0 < t)
    (h0 : 0 ≤ signedMag s m) (h1 : signedMag s m ≤ (t : Int)) :
    (∃ k : Nat, k ≤ 100 ∧ ∃ r,
      calculateProgress (.num (.fin s m)) (.num (.fin false t)) = .num r ∧
        r.units? = some ((k : Int) * quantum)) ∧
    calculateProgress (.num (.fin false 0)) (.num (.fin false t)) = .num (.fin false 0) ∧
    calculateProgress (.num (.fin false t)) (.num (.fin false t)) =
      .num (.fin false (100 * quantum)) := by
  have hq : (0 : Int) < quantum := by exact_mod_cast quantum_pos
  refine ⟨?_, calculateProgress_zero ht, calculateProgress_self ht⟩
  have hlo : (JSNum.fin false 0).le (.fin s m) = true := by
    rw [JSNum.le_fin_fin, decide_eq_true_eq, signedMag_zero]; exact h0
  have hhi : (JSNum.fin s m).le (.fin false t) = true := by
    rw [JSNum.le_fin_fin, decide_eq_true_eq, signedMag_false]; exact h1
  obtain ⟨a, r, ea, er, hle⟩ := calculateProgress_mono_aux ht hlo
  obtain ⟨r', b, er', eb, hle'⟩ := calculateProgress_mono_aux ht hhi
  rw [calculateProgress_zero ht] at ea
  rw [calculateProgress_self ht] at eb
  rw [er] at er'
  cases ea; cases eb; cases er'
  -- the result is `Math.round` of the product
  have hr := @calculateProgress_num (.fin s m) _ (truthy_fin_pos ht false)
  rw [er] at hr
  have hr' : r = mathRound (((JSNum.fin s m).div (.fin false t)).mul (ofNat 100)) := by
    injection hr
  generalize ((JSNum.fin s m).div (.fin false t)).mul (ofNat 100) = p at hr'
  cases p with
  | nan => subst hr'; simp [mathRound, JSNum.le_nan_right] at hle
  | inf c =>
    subst hr'
    cases c <;> simp [mathRound, JSNum.le_fin_inf, JSNum.le_inf_fin] at hle hle'
  | fin c j =>
    obtain ⟨s', m', e, u⟩ := mathRound_units c j
    rw [e] at hr'
    subst hr'
    rw [JSNum.le_fin_fin, decide_eq_true_eq, signedMag_zero, u] at hle
    rw [JSNum.le_fin_fin, decide_eq_true_eq, signedMag_false, u] at hle'
    generalize (2 * signedMag c j + quantum) / (2 * (quantum : Int)) = K at hle hle' u
    have hK0 : 0 ≤ K := by
      by_contra hneg
      have : K * quantum < 0 := Int.mul_neg_of_neg_of_pos (by omega) hq
      omega
    have hK1 : K ≤ 100 := by
      by_contra hbig
      have h101 : 101 ≤ K := by omega
      have := Int.mul_le_mul_of_nonneg_right h101 (le_of_lt hq)
      push_cast at hle'
      omega
    refine ⟨K.toNat, by omega, _, er, ?_⟩
    simp only [JSNum.units?, u]
    rw [Int.toNat_of_nonneg hK0]

/-- Witness of C14, at `current = 1`, `total = 4`: the result is `25`. -/
theorem calculateProgress_range_witness :
    (∃ k : Nat, k ≤ 100 ∧ ∃ r,
      calculateProgress (.num (.fin false quantum)) (.num (.fin false (4 * quantum))) = .num r ∧
        r.units? = some ((k : Int) * quantum)) ∧
    calculateProgress (.num (ofNat 1)) (.num (ofNat 4)) = .num (ofNat 25) :=
  ⟨(calculateProgress_range false quantum (4 * quantum) (by decide) (by decide)
      (by decide)).1, by decide⟩

/-- C15: `progressClass` is monotone: for Numbers `v <= w`, the class of `v` does
not rank above the class of `w` in the order danger < warning < info <
success. -/
theorem progressClass_monotone (v w : JSNum) (h : v.le w = true) :
    severityRank (progressClass (.num v)) ≤ severityRank (progressClass (.num w)) := by
  have hq := quantum_pos
  rw [progressClass_num, progressClass_num]
  simp only [ofNat_25, ofNat_50, ofNat_75]
  cases v with
  | nan => simp [JSNum.le] at h
  | inf a =>
    cases w with
    | nan => simp [JSNum.le_nan_right] at h
    | inf b =>
      cases a <;> cases b <;> simp [JSNum.le_inf_inf] at h <;>
        simp [JSNum.lt_inf_fin, severityRank]
    | fin b n =>
      rw [JSNum.le_inf_fin] at h
      subst h
      simp [JSNum.lt_inf_fin, severityRank]
  | fin a m =>
    cases w with
    | nan => simp [JSNum.le_nan_right] at h
    | inf b =>
      rw [JSNum.le_fin_inf] at h
      have hb : b = false := by cases b <;> simp_all
      subst hb
      simp only [JSNum.lt_inf_fin, reduceCtorEq, false_or, Bool.false_eq_true, if_false]
      split_ifs <;> simp [severityRank]
    | fin b n =>
      simp only [JSNum.le_fin_fin, JSNum.lt_fin_fin, decide_eq_true_eq, signedMag_false,
        Nat.cast_mul, Nat.cast_ofNat, reduceCtorEq, false_or] at h ⊢
      generalize signedMag a m = x at *
      generalize signedMag b n = y at *
      split_ifs <;> simp [severityRank] <;> omega

/-- Witness of C15, at `v = 30` and `w = 60`: warning ranks below info. -/
theorem progressClass_monotone_witness :
    (ofNat 30).le (ofNat 60) = true ∧
    severityRank (progressClass (.num (ofNat 30))) ≤
      severityRank (progressClass (.num (ofNat 60))) ∧
    progressClass (.num (ofNat 30)) = "bg-warning" ∧
    progressClass (.num (ofNat 60)) = "bg-info" :=
  ⟨by decide, progressClass_monotone (ofNat 30) (ofNat 60) (by decide), by decide, by decide⟩

/-- C16: `statusClass` is injective on the six status codes, and the class of a
code is never what a status outside the six codes gets. -/
theorem statusClass_injective :
    (∀ c₁ ∈ statusCodes, ∀ c₂ ∈ statusCodes,
      statusClass (.str c₁) = statusClass (.str c₂) → c₁ = c₂) ∧
    (∀ c ∈ statusCodes, ∀ status : JSText, status.toPropertyKey ∉ statusCodes →
      statusClass status ≠ statusClass (.str c)) ∧
    (∀ c ∈ statusCodes, statusClass (.str c) ≠ statusClass (.str "unknown")) := by
  refine ⟨by decide, ?_, by decide⟩
  intro c hc status hs
  have hcls : ∀ c ∈ statusCodes, statusClass (.str c) ≠ .str "badge-light" ∧
      ∃ x, statusClass (.str c) = .str x := by
    intro c hc
    simp only [statusCodes, List.mem_cons, List.mem_singleton, List.not_mem_nil, or_false] at hc
    rcases hc with rfl | rfl | rfl | rfl | rfl | rfl
    · exact ⟨by decide, _, (by decide : statusClass (.str "draft") = .str "badge-secondary")⟩
    · exact ⟨by decide, _, (by decide : statusClass (.str "submitted") = .str "badge-warning")⟩
    · exact ⟨by decide, _, (by decide : statusClass (.str "approved") = .str "badge-success")⟩
    · exact ⟨by decide, _, (by decide : statusClass (.str "in_progress") = .str "badge-primary")⟩
    · exact ⟨by decide, _, (by decide : statusClass (.str "done") = .str "badge-info")⟩
    · exact ⟨by decide, _, (by decide : statusClass (.str "cancelled") = .str "badge-dark")⟩
  obtain ⟨hne, x, hx⟩ := hcls c hc
  rcases statusClass_unrecognised status hs with e | e
  · rw [e]; exact fun h => hne h.symm
  · rw [e, hx]; simp

/-- C17: for a fixed finite `total > 0`, `calculateProgress` is monotone in
`current`: `current1 <= current2` gives
`calculateProgress(current1, total) <= calculateProgress(current2, total)`. -/
theorem calculateProgress_monotone (current₁ current₂ : JSNum) (total : Nat) (ht : 0 < total)
    (h : current₁.le current₂ = true) :
    (calculateProgress (.num current₁) (.num (.fin false total))).le
      (calculateProgress (.num current₂) (.num (.fin false total))) = true := by
  obtain ⟨r₁, r₂, e₁, e₂, hle⟩ := calculateProgress_mono_aux ht h
  rw [e₁, e₂]
  exact hle

/-- Witness of C17, at `total = 200` and the currents `29` and `30`: the results
are `14` and `15`. -/
theorem calculateProgress_monotone_witness :
    (calculateProgress (.num (ofNat 29)) (.num (.fin false (200 * quantum)))).le
      (calculateProgress (.num (ofNat 30)) (.num (.fin false (200 * quantum)))) = true ∧
    calculateProgress (.num (ofNat 29)) (.num (ofNat 200)) = .num (ofNat 14) ∧
    calculateProgress (.num (ofNat 30)) (.num (ofNat 200)) = .num (ofNat 15) :=
  ⟨calculateProgress_monotone (ofNat 29) (ofNat 30) (200 * quantum) (by decide) (by decide),
   by decide, by decide⟩

/-- C18: `validateQuantity` is monotone on finite quantities: once
`validateQuantity(current, previous, master)` is true it stays true for a
smaller `current`, a smaller `previous` and a larger `master`. -/
theorem validateQuantity_monotone (a : Bool) (m : Nat) (b : Bool) (n : Nat)
    (a' : Bool) (m' : Nat) (b' : Bool) (n' : Nat) (master master' : JSNum)
    (hv : validateQuantity (.num (.fin a m)) (.num (.fin b n)) (.num master) = true)
    (hc : (JSNum.fin a' m').le (.fin a m) = true)
    (hp : (JSNum.fin b' n').le (.fin b n) = true)
    (hm : master.le master' = true) :
    validateQuantity (.num (.fin a' m')) (.num (.fin b' n')) (.num master') = true := by
  simp only [validateQuantity, JSVal.add, JSVal.le, JSVal.toNumber] at hv ⊢
  rw [JSNum.le_fin_fin, decide_eq_true_eq] at hc hp
  exact JSNum.le_trans (JSNum.le_trans (JSNum.add_fin_mono (by omega)) hv) hm

/-- Witness of C18: from `validateQuantity(5, 3, 10)` to
`validateQuantity(4, 2, 11)`. -/
theorem validateQuantity_monotone_witness :
    validateQuantity (.num (.fin false (5 * quantum))) (.num (.fin false (3 * quantum)))
      (.num (ofNat 10)) = true ∧
    validateQuantity (.num (.fin false (4 * quantum))) (.num (.fin false (2 * quantum)))
      (.num (ofNat 11)) = true :=
  ⟨by decide,
   validateQuantity_monotone false (5 * quantum) false (3 * quantum) false (4 * quantum) false
     (2 * quantum) (ofNat 10) (ofNat 11) (by decide) (by decide) (by decide) (by decide)⟩

end Claims

end BoqWidgets
